import Mathlib

/-!
Verification of the awp task tracker's query/filter/sort/group engine and
view-state machine, shallowly embedded from the Go sources
(pkg/database/operations.go, pkg/ui/sorting.go, pkg/ui/helpers.go,
pkg/ui/update.go, pkg/commands/add.go).
-/

namespace AWP

/-! ## String helpers (Go strings package) -/

/-- Embeds Go strings.ToLower, restricted to ASCII case mapping; the result
is kept as a character list because it is only ever compared
lexicographically, which is byte order in Go and character order here. -/
def lowerKey (s : String) : List Char := s.data.map Char.toLower

/-- Embeds Go strings.Fields on a character list: splits around runs of
whitespace, returning the non-empty maximal runs of non-whitespace. -/
def fieldsCh : List Char → List (List Char)
  | [] => []
  | c :: cs =>
    if c.isWhitespace then fieldsCh cs
    else
      let tok := c :: cs.takeWhile (fun d => !d.isWhitespace)
      tok :: fieldsCh (cs.dropWhile (fun d => !d.isWhitespace))
termination_by l => l.length
decreasing_by
  · simp
  · exact Nat.lt_succ_of_le (List.Sublist.length_le (List.dropWhile_sublist _))

/-- Embeds Go strings.Fields. -/
def goFields (s : String) : List String := (fieldsCh s.data).map List.asString

/-- Embeds Go strings.TrimSpace (whitespace trim at both ends). -/
def goTrimSpace (s : String) : String :=
  (((s.data.dropWhile Char.isWhitespace).reverse.dropWhile Char.isWhitespace).reverse).asString

/-- First character of a string, the model of a one-character
strings.HasPrefix test. -/
def headCharIs (c : Char) (s : String) : Bool :=
  match s.data with
  | [] => false
  | d :: _ => c == d

/-- Contiguous-sublist test: true when the first list occurs contiguously
inside the second. -/
def subListOf : List Char → List Char → Bool
  | needle, [] => needle.isEmpty
  | needle, c :: t => needle.isPrefixOf (c :: t) || subListOf needle t

/-- Embeds Go strings.Contains / SQL substring tests: true when the
characters of needle occur contiguously inside hay. -/
def containsSubstr (hay needle : String) : Bool := subListOf needle.data hay.data

/-- Embeds Go strings.Join with a comma separator (tag-list encoding). -/
def joinComma (xs : List String) : String := String.intercalate "," xs

/-! ## Calendar model (Go time package, date part) -/

/-- Calendar date, the date part of a Go time.Time. -/
structure Date where
  year : Nat
  month : Nat
  day : Nat
deriving DecidableEq, Repr

/-- Leap year rule of the proleptic Gregorian calendar, as used by Go time. -/
def isLeap (y : Nat) : Bool := y % 4 == 0 && (y % 100 != 0 || y % 400 == 0)

/-- Days in a month of the Gregorian calendar. -/
def daysInMonth (y m : Nat) : Nat :=
  if m = 2 then (if isLeap y then 29 else 28)
  else if m = 4 ∨ m = 6 ∨ m = 9 ∨ m = 11 then 30
  else 31

/-- A date the application can actually hold: in-range month and day and a
four-digit year, matching the YYYY-MM-DD wire format. -/
def Date.Valid (d : Date) : Prop :=
  1 ≤ d.month ∧ d.month ≤ 12 ∧ 1 ≤ d.day ∧ d.day ≤ daysInMonth d.year d.month ∧ d.year ≤ 9999

instance (d : Date) : Decidable d.Valid := by unfold Date.Valid; infer_instance

/-- Serial day number of a date (days since 1970-01-01), the standard
civil-from-days inverse used to embed Go time arithmetic. -/
def daysFromCivil (d : Date) : Int :=
  let y : Int := if d.month ≤ 2 then (d.year : Int) - 1 else (d.year : Int)
  let era : Int := y / 400
  let yoe : Int := y - era * 400
  let mp : Int := if d.month > 2 then (d.month : Int) - 3 else (d.month : Int) + 9
  let doy : Int := (153 * mp + 2) / 5 + (d.day : Int) - 1
  let doe : Int := yoe * 365 + yoe / 4 - yoe / 100 + doy
  era * 146097 + doe - 719468

/-- Timestamp: a calendar date plus a second-of-day, the shallow model of a
Go time.Time value. -/
structure DateTime where
  date : Date
  secs : Nat
deriving DecidableEq, Repr

/-- Linearizes a timestamp for chronological comparison (time.Before). -/
def DateTime.toZ (t : DateTime) : Int := daysFromCivil t.date * 86400 + t.secs

/-- Embeds Go time.Time.Before. -/
def DateTime.before (a b : DateTime) : Bool := decide (a.toZ < b.toZ)

/-- Character for a single decimal digit. -/
def digitChar (n : Nat) : Char := Char.ofNat (48 + n)

/-- Two-digit zero-padded decimal rendering. -/
def pad2 (n : Nat) : List Char := [digitChar (n / 10 % 10), digitChar (n % 10)]

/-- Four-digit zero-padded decimal rendering. -/
def pad4 (n : Nat) : List Char :=
  [digitChar (n / 1000 % 10), digitChar (n / 100 % 10), digitChar (n / 10 % 10), digitChar (n % 10)]

/-- Embeds Go time.Time.Format with layout 2006-01-02 (the ISO date). -/
def formatISODate (d : Date) : String :=
  ⟨pad4 d.year ++ '-' :: (pad2 d.month ++ '-' :: pad2 d.day)⟩

/-- Month names used by Go layout January. -/
def monthName (m : Nat) : String :=
  match m with
  | 1 => "January" | 2 => "February" | 3 => "March" | 4 => "April"
  | 5 => "May" | 6 => "June" | 7 => "July" | 8 => "August"
  | 9 => "September" | 10 => "October" | 11 => "November" | 12 => "December"
  | _ => ""

/-- Embeds Go time.Time.Format with layout January 2006. -/
def formatMonthYear (d : Date) : String :=
  monthName d.month ++ " " ++ String.mk (pad4 d.year)

/-- Embeds Go time.Time.Format with layout 2006 (four-digit year). -/
def formatYear (d : Date) : String := String.mk (pad4 d.year)

/-- ISO weekday of a date, 1 = Monday .. 7 = Sunday (1970-01-01 is a
Thursday, day number 0). -/
def isoWeekday (d : Date) : Int := (daysFromCivil d + 3) % 7 + 1

/-- Ordinal day of the year, 1-based. -/
def dayOfYear (d : Date) : Int := daysFromCivil d - daysFromCivil ⟨d.year, 1, 1⟩ + 1

/-- Number of ISO weeks in a year (53 when the year starts or ends on a
Thursday, else 52). -/
def isoWeeksInYear (y : Nat) : Int :=
  if isoWeekday ⟨y, 1, 1⟩ = 4 ∨ isoWeekday ⟨y, 12, 31⟩ = 4 then 53 else 52

/-- Embeds Go time.Time.ISOWeek: ISO-8601 week number and week-based year. -/
def isoWeek (d : Date) : Int × Int :=
  let w : Int := (dayOfYear d - isoWeekday d + 10) / 7
  if w < 1 then (isoWeeksInYear (d.year - 1), (d.year : Int) - 1)
  else if w > isoWeeksInYear d.year then (1, (d.year : Int) + 1)
  else (w, (d.year : Int))

/-- Embeds Go time.Parse with layout 2006-01-02: strict YYYY-MM-DD with
four-digit year, two-digit zero-padded month and day, in-range values. -/
def parseYYYYMMDD (s : String) : Option Date :=
  match s.data with
  | [y1, y2, y3, y4, s1, m1, m2, s2, d1, d2] =>
    if s1 = '-' ∧ s2 = '-' ∧ y1.isDigit ∧ y2.isDigit ∧ y3.isDigit ∧ y4.isDigit ∧
        m1.isDigit ∧ m2.isDigit ∧ d1.isDigit ∧ d2.isDigit then
      let y := (y1.toNat - 48) * 1000 + (y2.toNat - 48) * 100 + (y3.toNat - 48) * 10 + (y4.toNat - 48)
      let m := (m1.toNat - 48) * 10 + (m2.toNat - 48)
      let d := (d1.toNat - 48) * 10 + (d2.toNat - 48)
      if 1 ≤ m ∧ m ≤ 12 ∧ 1 ≤ d ∧ d ≤ daysInMonth y m then some ⟨y, m, d⟩ else none
    else none
  | _ => none

/-! ## Data model (pkg/database, TodoItem and enums) -/

/-- Embeds the database.TodoItem struct. A missing due date is stored as the
Go zero time by LoadTasks; at this level DueDate is always present. -/
structure TodoItem where
  ID : Int
  Status : Bool
  Title : String
  Description : String
  Created : DateTime
  LastModified : DateTime
  DueDate : DateTime
  Projects : List String
  Contexts : List String
deriving DecidableEq, Repr

/-- Embeds database.ViewMode. -/
inductive ViewMode where
  | today | all | calendar
deriving DecidableEq, Repr

/-- Embeds database.TaskFilter. -/
inductive TaskFilter where
  | all | done | undone
deriving DecidableEq, Repr

/-- Embeds database.SortBy (seven sort keys). -/
inductive SortBy where
  | title | description | dueDate | created | status | project | context
deriving DecidableEq, Repr

/-- Embeds database.GroupBy (seven group keys). -/
inductive GroupBy where
  | none | project | context | daily | weekly | monthly | yearly
deriving DecidableEq, Repr

/-- Embeds database.SortOrder. -/
inductive SortOrder where
  | asc | desc
deriving DecidableEq, Repr

/-! ## Task store rows and the filter predicate (pkg/database/operations.go) -/

/-- A persisted row of the todos table: projects and contexts are the
comma-joined text columns, duedate is nullable. -/
structure TaskRow where
  id : Int
  status : Bool
  title : String
  description : String
  created : DateTime
  lastmodified : DateTime
  duedate : Option DateTime
  projects : String
  contexts : String
deriving DecidableEq, Repr

/-- Row written by database.AddTask for a TodoItem: tag lists are
comma-joined, the due date is always bound. -/
def itemToRow (t : TodoItem) : TaskRow :=
  { id := t.ID, status := t.Status, title := t.Title, description := t.Description,
    created := t.Created, lastmodified := t.LastModified, duedate := some t.DueDate,
    projects := joinComma t.Projects, contexts := joinComma t.Contexts }

/-- Text column of a row referenced by a LIKE clause. -/
inductive Field where
  | title | description | projects | contexts
deriving DecidableEq, Repr

/-- Condition syntax of the WHERE clauses database.BuildWhereClause emits:
a status test, a date(duedate) test against a literal date string, a
disjunction of two LIKE substring tests, or a conjunction. -/
inductive Cond where
  | statusIs (b : Bool)
  | dueDateIs (s : String)
  | likeAny (f1 : Field) (p1 : String) (f2 : Field) (p2 : String)
  | conj (a b : Cond)
deriving DecidableEq, Repr

/-- Embeds database.BuildWhereClause: none stands for the empty clause.
The Go switch has no CalendarViewMode case, so that mode contributes no
view or status clause. -/
def buildWhereClause (viewMode : ViewMode) (taskFilter : TaskFilter)
    (viewDate : String) (searchTerm : String) : Option Cond :=
  let base : Option Cond :=
    match viewMode with
    | .all =>
      match taskFilter with
      | .all => none
      | .done => some (.statusIs true)
      | .undone => some (.statusIs false)
    | .today =>
      match taskFilter with
      | .all => some (.dueDateIs viewDate)
      | .done => some (.conj (.dueDateIs viewDate) (.statusIs true))
      | .undone => some (.conj (.dueDateIs viewDate) (.statusIs false))
    | .calendar => none
  if searchTerm ≠ "" then
    let searchClause : Cond :=
      if headCharIs '+' searchTerm ∧ searchTerm.length > 1 then
        .likeAny .projects (searchTerm.drop 1) .description searchTerm
      else if headCharIs '@' searchTerm ∧ searchTerm.length > 1 then
        .likeAny .contexts (searchTerm.drop 1) .description searchTerm
      else
        .likeAny .title searchTerm .description searchTerm
    match base with
    | Option.none => some searchClause
    | some b => some (.conj b searchClause)
  else base

/-- Text column contents referenced by a LIKE clause. -/
def fieldStr (r : TaskRow) : Field → String
  | .title => r.title
  | .description => r.description
  | .projects => r.projects
  | .contexts => r.contexts

/-- Modelled from the spec: evaluation of the emitted WHERE clause by the
external SQLite store, which is not part of this repository. Following
section 4.2 of the spec, a LIKE pattern wrapped in percent signs holds
exactly when the operand occurs as a case-sensitive substring of the
column; date(duedate) = date(s) compares the due date rendered as an ISO
date string with s, and is false for a NULL duedate. -/
def rowMatches : Cond → TaskRow → Bool
  | .statusIs b, r => r.status == b
  | .dueDateIs s, r =>
    match r.duedate with
    | Option.none => false
    | some dt => formatISODate dt.date == s
  | .likeAny f1 p1 f2 p2, r =>
    containsSubstr (fieldStr r f1) p1 || containsSubstr (fieldStr r f2) p2
  | .conj a b, r => rowMatches a r && rowMatches b r

/-- Evaluation of an optional WHERE clause; the empty clause matches every
row. -/
def rowMatchesOpt (c : Option Cond) (r : TaskRow) : Bool :=
  match c with
  | Option.none => true
  | some c => rowMatches c r

/-! ## Generic comparison sort (model of Go sort.Slice) -/

/-- Inserts an element in front of the first entry it compares less-than,
the step of the insertion-sort model of Go sort.Slice. -/
def insertB {α : Type} (less : α → α → Bool) (a : α) : List α → List α
  | [] => [a]
  | b :: bs => if less a b then a :: b :: bs else b :: insertB less a bs

/-- Comparison sort used to model Go sort.Slice and sort.Strings: a
deterministic insertion sort over the given less function. -/
def sortSlice {α : Type} (less : α → α → Bool) : List α → List α
  | [] => []
  | a :: t => insertB less a (sortSlice less t)

/-- Null-last descending order on optional timestamps, the model of the
ORDER BY duedate DESC hint of database.LoadTasks. -/
def dueDescLess (a b : TaskRow) : Bool :=
  match a.duedate, b.duedate with
  | Option.none, _ => false
  | some _, Option.none => true
  | some x, some y => decide (y.toZ < x.toZ)

/-- Embeds database.LoadTasks: the rows matching the clause, ordered by
due date descending before the UI re-sorts them. -/
def loadTasksRows (db : List TaskRow) (c : Option Cond) : List TaskRow :=
  sortSlice dueDescLess (db.filter (fun r => rowMatchesOpt c r))

theorem insertB_perm {α : Type} (less : α → α → Bool) (a : α) :
    ∀ L : List α, (insertB less a L).Perm (a :: L)
  | [] => List.Perm.refl _
  | b :: bs => by
    unfold insertB
    by_cases h : less a b = true
    · rw [if_pos h]
    · rw [if_neg h]
      exact ((insertB_perm less a bs).cons b).trans (List.Perm.swap a b bs)

theorem sortSlice_perm {α : Type} (less : α → α → Bool) :
    ∀ L : List α, (sortSlice less L).Perm L
  | [] => List.Perm.refl _
  | a :: t => (insertB_perm less a (sortSlice less t)).trans ((sortSlice_perm less t).cons a)

theorem mem_insertB {α : Type} (less : α → α → Bool) (a x : α) (L : List α) :
    x ∈ insertB less a L ↔ x = a ∨ x ∈ L := by
  rw [(insertB_perm less a L).mem_iff, List.mem_cons]

theorem insertB_pairwise {α κ : Type} [LinearOrder κ] (key : α → κ)
    (less : α → α → Bool) (a : α) :
    ∀ L : List α,
      (∀ b ∈ L, (less a b = true ↔ key a < key b)) →
      (∀ b ∈ L, key a ≠ key b) →
      L.Pairwise (fun x y => key x < key y) →
      (insertB less a L).Pairwise (fun x y => key x < key y) := by
  intro L
  induction L with
  | nil => intro _ _ _; simp [insertB]
  | cons b bs ih =>
    intro hcmp hka hL
    rw [List.pairwise_cons] at hL
    unfold insertB
    by_cases h : less a b = true
    · have hab : key a < key b := (hcmp b (List.mem_cons_self b bs)).mp h
      rw [if_pos h, List.pairwise_cons]
      refine ⟨?_, List.pairwise_cons.mpr hL⟩
      intro x hx
      rcases List.mem_cons.mp hx with hx | hx
      · exact hx ▸ hab
      · exact hab.trans (hL.1 x hx)
    · have hba : key b < key a := by
        have h1 : ¬ key a < key b := fun hlt => h ((hcmp b (List.mem_cons_self b bs)).mpr hlt)
        have h2 : key a ≠ key b := hka b (List.mem_cons_self b bs)
        rcases lt_trichotomy (key a) (key b) with h' | h' | h'
        · exact absurd h' h1
        · exact absurd h' h2
        · exact h'
      rw [if_neg h, List.pairwise_cons]
      constructor
      · intro x hx
        rcases (mem_insertB less a x bs).mp hx with hx | hx
        · exact hx ▸ hba
        · exact hL.1 x hx
      · exact ih (fun c hc => hcmp c (List.mem_cons_of_mem b hc))
          (fun c hc => hka c (List.mem_cons_of_mem b hc)) hL.2

theorem sortSlice_pairwise {α κ : Type} [LinearOrder κ] (key : α → κ)
    (less : α → α → Bool) :
    ∀ L : List α,
      (∀ a ∈ L, ∀ b ∈ L, key a ≠ key b → (less a b = true ↔ key a < key b)) →
      L.Pairwise (fun x y => key x ≠ key y) →
      (sortSlice less L).Pairwise (fun x y => key x < key y) := by
  intro L
  induction L with
  | nil => intro _ _; simp [sortSlice]
  | cons a t ih =>
    intro hcmp hnd
    rw [List.pairwise_cons] at hnd
    unfold sortSlice
    have hmem : ∀ b ∈ sortSlice less t, b ∈ t :=
      fun b hb => (sortSlice_perm less t).mem_iff.mp hb
    refine insertB_pairwise key less a (sortSlice less t) ?_ ?_ ?_
    · intro b hb
      exact hcmp a (List.mem_cons_self a t) b (List.mem_cons_of_mem a (hmem b hb))
        (hnd.1 b (hmem b hb))
    · intro b hb
      exact hnd.1 b (hmem b hb)
    · exact ih (fun x hx y hy => hcmp x (List.mem_cons_of_mem a hx) y (List.mem_cons_of_mem a hy))
        hnd.2

theorem eq_of_perm_of_pairwiseLt {α κ : Type} [LinearOrder κ] (key : α → κ) :
    ∀ l₁ l₂ : List α, l₁.Perm l₂ →
      l₁.Pairwise (fun x y => key x < key y) →
      l₂.Pairwise (fun x y => key x < key y) →
      l₁ = l₂ := by
  intro l₁
  induction l₁ with
  | nil => intro l₂ p _ _; exact (p.symm.eq_nil).symm
  | cons a t ih =>
    intro l₂ p s₁ s₂
    cases l₂ with
    | nil => exact absurd p.eq_nil (by simp)
    | cons b t₂ =>
      rw [List.pairwise_cons] at s₁ s₂
      by_cases hab : a = b
      · subst hab
        have p' : t.Perm t₂ := p.cons_inv
        rw [ih t₂ p' s₁.2 s₂.2]
      · have ha : a ∈ b :: t₂ := p.mem_iff.mp (List.mem_cons_self a t)
        have ha₂ : a ∈ t₂ := by
          rcases List.mem_cons.mp ha with h | h
          · exact absurd h hab
          · exact h
        have hb : b ∈ a :: t := p.symm.mem_iff.mp (List.mem_cons_self b t₂)
        have hb₁ : b ∈ t := by
          rcases List.mem_cons.mp hb with h | h
          · exact absurd h.symm hab
          · exact h
        have h₁ : key a < key b := s₁.1 b hb₁
        have h₂ : key b < key a := s₂.1 a ha₂
        exact absurd h₁ (lt_asymm h₂)

theorem sortSlice_neg_reverse {α κ : Type} [LinearOrder κ] (key : α → κ)
    (less : α → α → Bool) (hless : ∀ a b, less a b = true ↔ key a < key b)
    (l : List α) (hnd : l.Pairwise fun a b => key a ≠ key b) :
    sortSlice (fun a b => !(less a b)) l = (sortSlice less l).reverse := by
  have SA : (sortSlice less l).Pairwise (fun x y => key x < key y) := by
    refine sortSlice_pairwise key less l ?_ hnd
    intro a _ b _ _
    exact hless a b
  have SD : (sortSlice (fun a b => !(less a b)) l).Pairwise (fun x y => key y < key x) := by
    have hmain := sortSlice_pairwise (κ := κᵒᵈ) (fun x => OrderDual.toDual (key x))
      (fun a b => !(less a b)) l ?_ ?_
    · exact hmain.imp (fun {x y} h => h)
    · intro a _ b _ hne
      have hne' : key a ≠ key b := fun he => hne (congrArg OrderDual.toDual he)
      show (!(less a b)) = true ↔ OrderDual.toDual (key a) < OrderDual.toDual (key b)
      rw [OrderDual.toDual_lt_toDual, Bool.not_eq_true']
      rw [Bool.eq_false_iff, Ne, hless a b]
      constructor
      · intro h
        exact ((not_lt.mp h).lt_of_ne (Ne.symm hne'))
      · intro h
        exact lt_asymm h
    · exact hnd.imp (fun {a b} h he => h (congrArg OrderDual.ofDual he))
  have SDrev : ((sortSlice (fun a b => !(less a b)) l).reverse).Pairwise
      (fun x y => key x < key y) := by
    rw [List.pairwise_reverse]
    exact SD
  have hperm : ((sortSlice (fun a b => !(less a b)) l).reverse).Perm (sortSlice less l) :=
    ((sortSlice (fun a b => !(less a b)) l).reverse_perm.trans
      (sortSlice_perm _ l)).trans (sortSlice_perm less l).symm
  have := eq_of_perm_of_pairwiseLt key _ _ hperm SDrev SA
  calc sortSlice (fun a b => !(less a b)) l
      = ((sortSlice (fun a b => !(less a b)) l).reverse).reverse := by rw [List.reverse_reverse]
    _ = (sortSlice less l).reverse := by rw [this]

/-! ## Sort/group engine (pkg/ui/sorting.go) -/

/-- Sorting and grouping state of the UI model (the fields of ui.Model the
sort/group engine reads). -/
structure SortState where
  sortBy : SortBy
  groupBy : GroupBy
  sortOrder : SortOrder
deriving DecidableEq, Repr

/-- Embeds ui.getFirstProject: first element of Projects, or empty. -/
def getFirstProject (t : TodoItem) : String :=
  match t.Projects with
  | [] => ""
  | p :: _ => p

/-- Embeds ui.getFirstContext: first element of Contexts, or empty. -/
def getFirstContext (t : TodoItem) : String :=
  match t.Contexts with
  | [] => ""
  | c :: _ => c

/-- Ascending comparison of the sort.Slice closure in ui.SortTasks, one
case per sort key. -/
def sortKeyLess (k : SortBy) (a b : TodoItem) : Bool :=
  match k with
  | .title => decide (lowerKey a.Title < lowerKey b.Title)
  | .description => decide (lowerKey a.Description < lowerKey b.Description)
  | .dueDate => a.DueDate.before b.DueDate
  | .created => a.Created.before b.Created
  | .status => !a.Status && b.Status
  | .project => decide (lowerKey (getFirstProject a) < lowerKey (getFirstProject b))
  | .context => decide (lowerKey (getFirstContext a) < lowerKey (getFirstContext b))

/-- Full comparison of the sort.Slice closure in ui.SortTasks: the
ascending result, negated when the sort order is descending. -/
def sortLess (m : SortState) (a b : TodoItem) : Bool :=
  let result := sortKeyLess m.sortBy a b
  if m.sortOrder = .desc then !result else result

/-- Embeds ui.Model.SortTasks. -/
def SortTasks (m : SortState) (tasks : List TodoItem) : List TodoItem :=
  sortSlice (sortLess m) tasks

/-- Group name assigned to a task by the switch in ui.Model.GroupTasks
(meaningful for group keys other than none). -/
def groupKeyOf (g : GroupBy) (t : TodoItem) : String :=
  match g with
  | .project =>
    let k := getFirstProject t
    if k = "" then "No Project" else "+" ++ k
  | .context =>
    let k := getFirstContext t
    if k = "" then "No Context" else "@" ++ k
  | .daily => formatISODate t.DueDate.date
  | .weekly =>
    let yw := isoWeek t.DueDate.date
    "Week " ++ toString yw.1 ++ ", " ++ toString yw.2
  | .monthly => formatMonthYear t.DueDate.date
  | .yearly => formatYear t.DueDate.date
  | .none => ""

/-- Grouped result rows, embedding ui.GroupedTasks. -/
structure GroupedTasks where
  GroupName : String
  Tasks : List TodoItem
deriving DecidableEq, Repr

/-- Ascending string sort, the model of Go sort.Strings. -/
def sortStrings (l : List String) : List String :=
  sortSlice (fun a b => decide (a.data < b.data)) l

/-- Embeds ui.Model.GroupTasks: with group key none, a single unnamed group
holding the sorted tasks; otherwise tasks are bucketed by group name, the
distinct names are string-sorted ascending, and each bucket is sorted with
the current sort key and order. The Go map iteration order is irrelevant
because the collected names are sorted, so buckets are modelled as filters
over the distinct names. -/
def GroupTasks (m : SortState) (tasks : List TodoItem) : List GroupedTasks :=
  if m.groupBy = GroupBy.none then
    [{ GroupName := "", Tasks := SortTasks m tasks }]
  else
    let names := sortStrings ((tasks.map (groupKeyOf m.groupBy)).dedup)
    names.map (fun n =>
      { GroupName := n, Tasks := SortTasks m (tasks.filter (fun t => groupKeyOf m.groupBy t == n)) })

theorem sortTasks_reverse_of_key {κ : Type} [LinearOrder κ] (key : TodoItem → κ)
    (k : SortBy) (g : GroupBy)
    (hk : ∀ a b, sortKeyLess k a b = true ↔ key a < key b)
    (l : List TodoItem)
    (hnt : l.Pairwise fun a b => sortKeyLess k a b = true ∨ sortKeyLess k b a = true) :
    SortTasks ⟨k, g, .desc⟩ l = (SortTasks ⟨k, g, .asc⟩ l).reverse := by
  have hnd : l.Pairwise fun a b => key a ≠ key b := by
    refine hnt.imp ?_
    intro a b h
    rcases h with h | h
    · exact ne_of_lt ((hk a b).mp h)
    · exact (ne_of_lt ((hk b a).mp h)).symm
  have hmain := sortSlice_neg_reverse key (sortKeyLess k) hk l hnd
  have e1 : sortLess ⟨k, g, .desc⟩ = fun a b => !(sortKeyLess k a b) := by
    funext a b
    simp [sortLess]
  have e2 : sortLess ⟨k, g, .asc⟩ = sortKeyLess k := by
    funext a b
    simp [sortLess]
  unfold SortTasks
  rw [e1, e2]
  exact hmain

/-- C2: for every sort key, descending sort is the exact reverse of
ascending sort on lists without ties under that key, and the descending
comparator is the uniform negation of the ascending one for every key,
status included. -/
theorem sort_desc_is_reverse_of_asc (k : SortBy) (g : GroupBy) (l : List TodoItem)
    (hnt : l.Pairwise fun a b => sortKeyLess k a b = true ∨ sortKeyLess k b a = true) :
    (∀ a b, sortLess ⟨k, g, .desc⟩ a b = !(sortLess ⟨k, g, .asc⟩ a b)) ∧
    SortTasks ⟨k, g, .desc⟩ l = (SortTasks ⟨k, g, .asc⟩ l).reverse := by
  constructor
  · intro a b
    simp [sortLess]
  · cases k with
    | title =>
      exact sortTasks_reverse_of_key (fun t => lowerKey t.Title) .title g
        (fun _ _ => decide_eq_true_iff) l hnt
    | description =>
      exact sortTasks_reverse_of_key (fun t => lowerKey t.Description) .description g
        (fun _ _ => decide_eq_true_iff) l hnt
    | dueDate =>
      exact sortTasks_reverse_of_key (fun t => t.DueDate.toZ) .dueDate g
        (fun _ _ => decide_eq_true_iff) l hnt
    | created =>
      exact sortTasks_reverse_of_key (fun t => t.Created.toZ) .created g
        (fun _ _ => decide_eq_true_iff) l hnt
    | status =>
      refine sortTasks_reverse_of_key (fun t => t.Status) .status g ?_ l hnt
      intro a b
      show (!a.Status && b.Status) = true ↔ a.Status < b.Status
      cases a.Status <;> cases b.Status <;> simp
    | project =>
      exact sortTasks_reverse_of_key (fun t => lowerKey (getFirstProject t)) .project g
        (fun _ _ => decide_eq_true_iff) l hnt
    | context =>
      exact sortTasks_reverse_of_key (fun t => lowerKey (getFirstContext t)) .context g
        (fun _ _ => decide_eq_true_iff) l hnt

/-- Reference timestamp used by concrete witness tasks. -/
def wD : DateTime := ⟨⟨2024, 1, 1⟩, 0⟩

/-- Concrete task with a given title, for witnesses. -/
def wTask (n : String) : TodoItem := ⟨0, false, n, "", wD, wD, wD, [], []⟩

/-- Witness for C2: three concrete tasks with distinct titles, sorted by
title; descending equals the reverse of ascending. -/
theorem sort_desc_is_reverse_of_asc_witness :
    ([wTask "b", wTask "a", wTask "c"].Pairwise fun a b =>
      sortKeyLess .title a b = true ∨ sortKeyLess .title b a = true) ∧
    SortTasks ⟨.title, .none, .desc⟩ [wTask "b", wTask "a", wTask "c"]
      = (SortTasks ⟨.title, .none, .asc⟩ [wTask "b", wTask "a", wTask "c"]).reverse :=
  ⟨by decide, (sort_desc_is_reverse_of_asc .title .none _ (by decide)).2⟩

/-- Pointwise permutations of bucket contents give a permutation of the
concatenation. -/
theorem join_perm_of_forall {α β : Type} (g h : β → List α) :
    ∀ names : List β, (∀ n ∈ names, (g n).Perm (h n)) →
      ((names.map g).flatten).Perm ((names.map h).flatten) := by
  intro names
  induction names with
  | nil => intro _; simp
  | cons n rest ih =>
    intro H
    simp only [List.map_cons, List.flatten_cons]
    exact (H n (List.mem_cons_self n rest)).append
      (ih (fun m hm => H m (List.mem_cons_of_mem n hm)))

/-- Concatenating the buckets of a partition by key recovers the original
list up to permutation, for any duplicate-free list of names covering every
key. -/
theorem join_filter_perm {α β : Type} [DecidableEq β] (f : α → β) :
    ∀ (names : List β) (l : List α), names.Nodup → (∀ x ∈ l, f x ∈ names) →
      ((names.map (fun n => l.filter (fun x => f x == n))).flatten).Perm l := by
  intro names
  induction names with
  | nil =>
    intro l _ hcov
    cases l with
    | nil => simp
    | cons a t => exact absurd (hcov a (List.mem_cons_self a t)) (List.not_mem_nil _)
  | cons n rest ih =>
    intro l hnd hcov
    rw [List.nodup_cons] at hnd
    simp only [List.map_cons, List.flatten_cons]
    have hinner : ∀ m ∈ rest,
        l.filter (fun x => f x == m)
          = (l.filter (fun x => !(f x == n))).filter (fun x => f x == m) := by
      intro m hm
      rw [List.filter_filter]
      refine (List.filter_congr ?_).symm
      intro x _
      by_cases hx : f x == m
      · have hxm : f x = m := eq_of_beq hx
        have hmn : ¬ (f x == n) = true := by
          intro hc
          have hmeqn : m = n := hxm.symm.trans (eq_of_beq hc)
          exact hnd.1 (hmeqn ▸ hm)
        simp [hx, hmn]
      · simp [hx]
    have hmap : rest.map (fun m => l.filter (fun x => f x == m))
        = rest.map (fun m => (l.filter (fun x => !(f x == n))).filter (fun x => f x == m)) := by
      exact List.map_congr_left hinner
    rw [hmap]
    have hcov2 : ∀ x ∈ l.filter (fun x => !(f x == n)), f x ∈ rest := by
      intro x hx
      rw [List.mem_filter] at hx
      rcases List.mem_cons.mp (hcov x hx.1) with h | h
      · exfalso
        have := hx.2
        rw [h] at this
        simp at this
      · exact h
    have hrec := ih (l.filter (fun x => !(f x == n))) hnd.2 hcov2
    have happ := List.Perm.append (List.Perm.refl (l.filter (fun x => f x == n))) hrec
    refine happ.trans ?_
    have := List.filter_append_perm (fun x => f x == n) l
    exact this

/-- C3: flattening the groups returned by GroupTasks yields the input task
list as a multiset, for every grouping and sorting state: grouping never
drops nor duplicates a task. -/
theorem groupTasks_flatten_perm (m : SortState) (tasks : List TodoItem) :
    (((GroupTasks m tasks).map GroupedTasks.Tasks).flatten).Perm tasks := by
  unfold GroupTasks
  by_cases hg : m.groupBy = GroupBy.none
  · rw [if_pos hg]
    simpa using sortSlice_perm (sortLess m) tasks
  · rw [if_neg hg]
    simp only [List.map_map]
    have e : ((sortStrings ((tasks.map (groupKeyOf m.groupBy)).dedup)).map
        (GroupedTasks.Tasks ∘ fun n =>
          { GroupName := n,
            Tasks := SortTasks m (tasks.filter (fun t => groupKeyOf m.groupBy t == n)) }))
        = ((sortStrings ((tasks.map (groupKeyOf m.groupBy)).dedup)).map
          (fun n => SortTasks m (tasks.filter (fun t => groupKeyOf m.groupBy t == n)))) := rfl
    rw [e]
    have hsorted : ∀ n ∈ sortStrings ((tasks.map (groupKeyOf m.groupBy)).dedup),
        (SortTasks m (tasks.filter (fun t => groupKeyOf m.groupBy t == n))).Perm
          (tasks.filter (fun t => groupKeyOf m.groupBy t == n)) :=
      fun n _ => sortSlice_perm (sortLess m) _
    refine (join_perm_of_forall _ _ _ hsorted).trans ?_
    refine join_filter_perm (groupKeyOf m.groupBy) _ tasks ?_ ?_
    · exact ((tasks.map (groupKeyOf m.groupBy)).nodup_dedup).perm
        (sortSlice_perm _ _).symm
    · intro x hx
      have : groupKeyOf m.groupBy x ∈ (tasks.map (groupKeyOf m.groupBy)).dedup :=
        List.mem_dedup.mpr (List.mem_map_of_mem _ hx)
      exact (sortSlice_perm (fun a b => decide (a.data < b.data)) _).mem_iff.mpr this

/-- Modelled from the spec (claim C4 wording): group names as the claim
describes them: a plus sign and the first project, or the literal
No Project when the task has no project; symmetrically for contexts; the
ISO date for daily; Week isoWeek, isoYear for weekly; full month name plus
four-digit year for monthly; four-digit year for yearly. -/
def specGroupName (g : GroupBy) (t : TodoItem) : String :=
  match g with
  | .project =>
    match t.Projects with
    | [] => "No Project"
    | p :: _ => "+" ++ p
  | .context =>
    match t.Contexts with
    | [] => "No Context"
    | c :: _ => "@" ++ c
  | .daily => formatISODate t.DueDate.date
  | .weekly => "Week " ++ toString (isoWeek t.DueDate.date).1 ++ ", " ++ toString (isoWeek t.DueDate.date).2
  | .monthly => monthName t.DueDate.date.month ++ " " ++ String.mk (pad4 t.DueDate.date.year)
  | .yearly => String.mk (pad4 t.DueDate.date.year)
  | .none => ""

/-- C4: with a group key other than none, the groups come out ordered by
plain ascending lexicographic comparison of their names, the name list is
the string-sorted deduplication of the per-task group keys (hence
independent of the task sort key and order), and each task's group key is
the name the specification describes, given the data-model invariant that
tag lists hold no empty strings. -/
theorem groups_sorted_and_named (m : SortState) (tasks : List TodoItem)
    (hg : m.groupBy ≠ GroupBy.none)
    (hwf : ∀ t ∈ tasks, ¬ "" ∈ t.Projects ∧ ¬ "" ∈ t.Contexts) :
    ((GroupTasks m tasks).map GroupedTasks.GroupName).Pairwise (fun a b => a.data < b.data) ∧
    (GroupTasks m tasks).map GroupedTasks.GroupName
      = sortStrings ((tasks.map (groupKeyOf m.groupBy)).dedup) ∧
    ∀ t ∈ tasks, groupKeyOf m.groupBy t = specGroupName m.groupBy t := by
  have hnames : (GroupTasks m tasks).map GroupedTasks.GroupName
      = sortStrings ((tasks.map (groupKeyOf m.groupBy)).dedup) := by
    unfold GroupTasks
    rw [if_neg hg, List.map_map]
    exact List.map_id _
  refine ⟨?_, hnames, ?_⟩
  · rw [hnames]
    refine sortSlice_pairwise (fun s : String => s.data)
      (fun a b => decide (a.data < b.data)) _ ?_ ?_
    · intro a _ b _ _
      exact decide_eq_true_iff
    · refine ((tasks.map (groupKeyOf m.groupBy)).nodup_dedup).imp ?_
      intro a b hne hd
      apply hne
      cases a
      cases b
      exact congrArg String.mk hd
  · intro t ht
    cases hgb : m.groupBy with
    | none => exact absurd hgb hg
    | project =>
      rcases hp : t.Projects with _ | ⟨p, ps⟩
      · simp [groupKeyOf, specGroupName, getFirstProject, hp]
      · have hpne : ¬ p = "" := by
          intro he
          exact (hwf t ht).1 (hp ▸ he ▸ List.mem_cons_self p ps)
        simp [groupKeyOf, specGroupName, getFirstProject, hp, hpne]
    | context =>
      rcases hp : t.Contexts with _ | ⟨c, cs⟩
      · simp [groupKeyOf, specGroupName, getFirstContext, hp]
      · have hcne : ¬ c = "" := by
          intro he
          exact (hwf t ht).2 (hp ▸ he ▸ List.mem_cons_self c cs)
        simp [groupKeyOf, specGroupName, getFirstContext, hp, hcne]
    | daily => rfl
    | weekly => rfl
    | monthly => rfl
    | yearly => rfl

/-- Concrete task with a first project and first context, for witnesses. -/
def wTaskP : TodoItem := ⟨0, false, "a", "", wD, wD, wD, ["bills"], ["home"]⟩

/-- Witness for C4: grouping two concrete tasks by project produces
lexicographically ordered names matching the described construction. -/
theorem groups_sorted_and_named_witness :
    ((((GroupTasks ⟨.title, .project, .asc⟩ [wTaskP, wTask "x"]).map
        GroupedTasks.GroupName).Pairwise (fun a b => a.data < b.data)) ∧
    (GroupTasks ⟨.title, .project, .asc⟩ [wTaskP, wTask "x"]).map GroupedTasks.GroupName
      = sortStrings (([wTaskP, wTask "x"].map (groupKeyOf .project)).dedup) ∧
    ∀ t ∈ [wTaskP, wTask "x"], groupKeyOf .project t = specGroupName .project t) :=
  groups_sorted_and_named ⟨.title, .project, .asc⟩ [wTaskP, wTask "x"]
    (by decide) (by decide)

theorem daysInMonth_le (y m : Nat) : daysInMonth y m ≤ 31 := by
  unfold daysInMonth
  split
  · split <;> norm_num
  · split <;> norm_num

theorem digitChar_inj : ∀ x < 10, ∀ y < 10, digitChar x = digitChar y → x = y := by decide

/-- The ISO date rendering is injective on valid dates. -/
theorem formatISODate_inj (a b : Date) (ha : a.Valid) (hb : b.Valid) :
    formatISODate a = formatISODate b ↔ a = b := by
  constructor
  · intro h
    have hl : pad4 a.year ++ '-' :: (pad2 a.month ++ '-' :: pad2 a.day)
        = pad4 b.year ++ '-' :: (pad2 b.month ++ '-' :: pad2 b.day) :=
      congrArg String.data h
    simp only [pad4, pad2, List.cons_append, List.nil_append, List.cons.injEq,
      and_true] at hl
    obtain ⟨e1, e2, e3, e4, -, e5, e6, -, e7, e8⟩ := hl
    have m10 : ∀ n k : Nat, n / k % 10 < 10 := fun n k => Nat.mod_lt _ (by norm_num)
    have m10' : ∀ n : Nat, n % 10 < 10 := fun n => Nat.mod_lt _ (by norm_num)
    have n1 := digitChar_inj _ (m10 a.year 1000) _ (m10 b.year 1000) e1
    have n2 := digitChar_inj _ (m10 a.year 100) _ (m10 b.year 100) e2
    have n3 := digitChar_inj _ (m10 a.year 10) _ (m10 b.year 10) e3
    have n4 := digitChar_inj _ (m10' a.year) _ (m10' b.year) e4
    have n5 := digitChar_inj _ (m10 a.month 10) _ (m10 b.month 10) e5
    have n6 := digitChar_inj _ (m10' a.month) _ (m10' b.month) e6
    have n7 := digitChar_inj _ (m10 a.day 10) _ (m10 b.day 10) e7
    have n8 := digitChar_inj _ (m10' a.day) _ (m10' b.day) e8
    obtain ⟨_, ham, _, had, hay⟩ := ha
    obtain ⟨_, hbm, _, hbd, hby⟩ := hb
    have had' : a.day ≤ 31 := had.trans (daysInMonth_le _ _)
    have hbd' : b.day ≤ 31 := hbd.trans (daysInMonth_le _ _)
    have hy : a.year = b.year := by omega
    have hm : a.month = b.month := by omega
    have hd : a.day = b.day := by omega
    cases a
    cases b
    simp only [Date.mk.injEq]
    exact ⟨hy, hm, hd⟩
  · intro h
    rw [h]

/-- C1: for any search term that starts with a plus sign and is longer
than one character, the built predicate (in the all-tasks view with the
all-status filter) matches a row exactly when the projects column contains
the unsigiled remainder as a substring, or the description contains the
full raw term as a substring. -/
theorem search_plus_term_matches (w : String) (r : TaskRow)
    (hplus : headCharIs '+' w = true) (hlen : w.length > 1) :
    rowMatchesOpt (buildWhereClause .all .all "" w) r
      = (containsSubstr r.projects (w.drop 1) || containsSubstr r.description w) := by
  have hne : w ≠ "" := by
    intro he
    rw [he] at hplus
    exact Bool.false_ne_true hplus
  have hclause : buildWhereClause .all .all "" w
      = some (.likeAny .projects (w.drop 1) .description w) := by
    unfold buildWhereClause
    rw [if_pos hne, if_pos (⟨hplus, hlen⟩ : headCharIs '+' w = true ∧ w.length > 1)]
  rw [hclause]
  rfl

/-- Concrete task carrying the project work, for the C1 witness. -/
def wItemProj : TodoItem := ⟨1, false, "t1", "", wD, wD, wD, ["work"], []⟩

/-- Concrete task whose description mentions the raw term, for the C1
witness. -/
def wItemDesc : TodoItem := ⟨2, false, "t2", "discuss +work items", wD, wD, wD, [], []⟩

/-- Concrete task related to work only through its contexts, for the C1
witness. -/
def wItemCtx : TodoItem := ⟨3, false, "t3", "no relation here", wD, wD, wD, [], ["work"]⟩

/-- Witness for C1: the term +work matches the projects task and the
description task but not the contexts-only task. -/
theorem search_plus_term_matches_witness :
    rowMatchesOpt (buildWhereClause .all .all "" "+work") (itemToRow wItemProj) = true ∧
    rowMatchesOpt (buildWhereClause .all .all "" "+work") (itemToRow wItemDesc) = true ∧
    rowMatchesOpt (buildWhereClause .all .all "" "+work") (itemToRow wItemCtx) = false :=
  ⟨(search_plus_term_matches "+work" _ (by decide) (by decide)).trans (by decide),
   (search_plus_term_matches "+work" _ (by decide) (by decide)).trans (by decide),
   (search_plus_term_matches "+work" _ (by decide) (by decide)).trans (by decide)⟩

/-- C6: the predicate built for the by-date view with the all filter and an
empty search term selects exactly the rows whose due date has the viewed
calendar date; rows with a different date or a NULL due date are excluded,
and LoadTasks returns exactly the matching rows (up to its ordering). -/
theorem byDate_selects_exactly (d : Date) (r : TaskRow)
    (hd : d.Valid) (hr : ∀ dt, r.duedate = some dt → dt.date.Valid) :
    (rowMatchesOpt (buildWhereClause .today .all (formatISODate d) "") r = true
      ↔ ∃ dt, r.duedate = some dt ∧ dt.date = d) ∧
    ∀ db : List TaskRow,
      (loadTasksRows db (buildWhereClause .today .all (formatISODate d) "")).Perm
        (db.filter (fun row =>
          rowMatchesOpt (buildWhereClause .today .all (formatISODate d) "") row)) := by
  constructor
  · have hclause : buildWhereClause .today .all (formatISODate d) ""
        = some (.dueDateIs (formatISODate d)) := rfl
    rw [hclause]
    cases hdu : r.duedate with
    | none =>
      simp only [rowMatchesOpt, rowMatches, hdu]
      constructor
      · intro h
        exact absurd h (by simp)
      · intro ⟨dt, hdt, _⟩
        exact Option.noConfusion hdt
    | some dt =>
      simp only [rowMatchesOpt, rowMatches, hdu, beq_iff_eq]
      rw [formatISODate_inj dt.date d (hr dt hdu) hd]
      constructor
      · intro h
        exact ⟨dt, rfl, h⟩
      · intro ⟨dt', hdt', hdate⟩
        cases hdt'
        exact hdate
  · intro db
    exact sortSlice_perm dueDescLess _

/-- Row with the viewed due date, for the C6 witness. -/
def wRowMar : TaskRow :=
  ⟨7, false, "x", "", wD, wD, some ⟨⟨2024, 3, 1⟩, 3600⟩, "", ""⟩

/-- Row with a NULL due date, for the C6 witness. -/
def wRowNull : TaskRow := ⟨8, true, "y", "", wD, wD, Option.none, "", ""⟩

/-- Witness for C6 at the date 2024-03-01: a row dated that day is
selected, a row with a NULL due date is not. -/
theorem byDate_selects_exactly_witness :
    rowMatchesOpt (buildWhereClause .today .all (formatISODate ⟨2024, 3, 1⟩) "") wRowMar = true ∧
    rowMatchesOpt (buildWhereClause .today .all (formatISODate ⟨2024, 3, 1⟩) "") wRowNull = false := by
  constructor
  · exact (byDate_selects_exactly ⟨2024, 3, 1⟩ wRowMar (by decide)
      (by intro dt h; cases h; exact (by decide))).1.mpr ⟨⟨⟨2024, 3, 1⟩, 3600⟩, rfl, rfl⟩
  · refine Bool.eq_false_iff.mpr ?_
    intro htrue
    rcases (byDate_selects_exactly ⟨2024, 3, 1⟩ wRowNull (by decide)
      (by intro dt h; exact Option.noConfusion h)).1.mp htrue with ⟨dt, hdt, _⟩
    exact Option.noConfusion hdt

/-! ## Date navigator (pkg/ui/helpers.go, findPrevDayWithTasks and
findNextDayWithTasks). Calendar days are modelled by their serial day
number, so stepping one calendar day is adding or subtracting one. -/

/-- Embeds the per-step SQL query SELECT COUNT(*) FROM todos WHERE
date(duedate) = date(testDate): the number of rows due on the given day,
with no restriction on status, projects or search term. -/
def countOnDay (db : List TaskRow) (z : Int) : Nat :=
  (db.filter (fun r =>
    match r.duedate with
    | some dt => daysFromCivil dt.date == z
    | Option.none => false)).length

/-- Embeds the bounded scanning loop shared by findPrevDayWithTasks and
findNextDayWithTasks: starting at a day, step by dir while the count is
zero, for at most the given number of candidate days. -/
def scanDays (count : Int → Nat) (dir : Int) : Int → Nat → Option Int
  | _, 0 => Option.none
  | d, fuel + 1 => if count d > 0 then some d else scanDays count dir (d + dir) fuel

/-- Embeds ui.Model.findNextDayWithTasks: scan starts the day after the
view date and examines up to 365 candidates. -/
def findNextDayWithTasks (db : List TaskRow) (viewDate : Int) : Option Int :=
  scanDays (countOnDay db) 1 (viewDate + 1) 365

/-- Embeds ui.Model.findPrevDayWithTasks: scan starts the day before the
view date and examines up to 365 candidates. -/
def findPrevDayWithTasks (db : List TaskRow) (viewDate : Int) : Option Int :=
  scanDays (countOnDay db) (-1) (viewDate - 1) 365

/-- View date resulting from a forward navigation: the found day, else the
unchanged view date. -/
def nextDayViewDate (db : List TaskRow) (viewDate : Int) : Int :=
  match findNextDayWithTasks db viewDate with
  | some d => d
  | Option.none => viewDate

/-- View date resulting from a backward navigation. -/
def prevDayViewDate (db : List TaskRow) (viewDate : Int) : Int :=
  match findPrevDayWithTasks db viewDate with
  | some d => d
  | Option.none => viewDate

theorem scanDays_none_iff (count : Int → Nat) (dir : Int) :
    ∀ (fuel : Nat) (d : Int),
      (scanDays count dir d fuel = Option.none ↔ ∀ i : Nat, i < fuel → count (d + dir * i) = 0) := by
  intro fuel
  induction fuel with
  | zero =>
    intro d
    simp [scanDays]
  | succ n ih =>
    intro d
    unfold scanDays
    by_cases h : count d > 0
    · rw [if_pos h]
      constructor
      · intro hc
        exact Option.noConfusion hc
      · intro hall
        have := hall 0 (Nat.succ_pos n)
        simp only [Nat.cast_zero, Int.mul_zero, Int.add_zero] at this
        omega
    · rw [if_neg h]
      rw [ih (d + dir)]
      constructor
      · intro hall i hi
        cases i with
        | zero =>
          simp only [Nat.cast_zero, Int.mul_zero, Int.add_zero]
          omega
        | succ j =>
          have := hall j (by omega)
          have he : d + dir * (j + 1 : Nat) = d + dir + dir * j := by
            push_cast
            ring
          rw [he]
          exact this
      · intro hall j hj
        have := hall (j + 1) (by omega)
        have he : d + dir * (j + 1 : Nat) = d + dir + dir * j := by
          push_cast
          ring
        rw [he] at this
        exact this

theorem scanDays_some (count : Int → Nat) (dir : Int) :
    ∀ (fuel : Nat) (d e : Int), scanDays count dir d fuel = some e →
      count e > 0 ∧ ∃ i : Nat, i < fuel ∧ e = d + dir * i ∧
        ∀ j : Nat, j < i → count (d + dir * j) = 0 := by
  intro fuel
  induction fuel with
  | zero =>
    intro d e hc
    exact Option.noConfusion hc
  | succ n ih =>
    intro d e hc
    unfold scanDays at hc
    by_cases h : count d > 0
    · rw [if_pos h] at hc
      cases hc
      refine ⟨h, 0, Nat.succ_pos n, by simp, ?_⟩
      intro j hj
      omega
    · rw [if_neg h] at hc
      obtain ⟨hpos, i, hi, he, hzero⟩ := ih (d + dir) e hc
      refine ⟨hpos, i + 1, by omega, ?_, ?_⟩
      · rw [he]
        push_cast
        ring
      · intro j hj
        cases j with
        | zero =>
          simp only [Nat.cast_zero, Int.mul_zero, Int.add_zero]
          omega
        | succ k =>
          have := hzero k (by omega)
          have heq : d + dir * (k + 1 : Nat) = d + dir + dir * k := by
            push_cast
            ring
          rw [heq]
          exact this

/-- C5: forward and backward adjacent-day searches examine one candidate
day at a time starting next to the view date, using the status-unrestricted
per-day count; they stop at the first day with a positive count, give up
exactly when all 365 candidate days count zero, and a failed search leaves
the view date unchanged. -/
theorem adjacent_day_scan (db : List TaskRow) (v : Int) :
    (findNextDayWithTasks db v = Option.none
      ↔ ∀ i : Nat, i < 365 → countOnDay db (v + 1 + i) = 0) ∧
    (∀ e, findNextDayWithTasks db v = some e →
      countOnDay db e > 0 ∧ ∃ i : Nat, i < 365 ∧ e = v + 1 + i ∧
        ∀ j : Nat, j < i → countOnDay db (v + 1 + j) = 0) ∧
    (findPrevDayWithTasks db v = Option.none
      ↔ ∀ i : Nat, i < 365 → countOnDay db (v - 1 - i) = 0) ∧
    (∀ e, findPrevDayWithTasks db v = some e →
      countOnDay db e > 0 ∧ ∃ i : Nat, i < 365 ∧ e = v - 1 - i ∧
        ∀ j : Nat, j < i → countOnDay db (v - 1 - j) = 0) ∧
    (findNextDayWithTasks db v = Option.none → nextDayViewDate db v = v) ∧
    (findPrevDayWithTasks db v = Option.none → prevDayViewDate db v = v) ∧
    (∀ f : TaskRow → Bool, ∀ z : Int,
      countOnDay (db.map (fun r => { r with status := f r })) z = countOnDay db z) := by
  refine ⟨?_, ?_, ?_, ?_, ?_, ?_, ?_⟩
  · rw [findNextDayWithTasks, scanDays_none_iff]
    constructor
    · intro h i hi
      have := h i hi
      rw [Int.one_mul] at this
      exact this
    · intro h i hi
      rw [Int.one_mul]
      exact h i hi
  · intro e he
    obtain ⟨hpos, i, hi, heq, hzero⟩ := scanDays_some (countOnDay db) 1 365 (v + 1) e he
    rw [Int.one_mul] at heq
    refine ⟨hpos, i, hi, heq, ?_⟩
    intro j hj
    have := hzero j hj
    rw [Int.one_mul] at this
    exact this
  · rw [findPrevDayWithTasks, scanDays_none_iff]
    constructor
    · intro h i hi
      have := h i hi
      have he : v - 1 + -1 * (i : Int) = v - 1 - i := by ring
      rw [he] at this
      exact this
    · intro h i hi
      have he : v - 1 + -1 * (i : Int) = v - 1 - i := by ring
      rw [he]
      exact h i hi
  · intro e he
    obtain ⟨hpos, i, hi, heq, hzero⟩ := scanDays_some (countOnDay db) (-1) 365 (v - 1) e he
    have he2 : v - 1 + -1 * (i : Int) = v - 1 - i := by ring
    rw [he2] at heq
    refine ⟨hpos, i, hi, heq, ?_⟩
    intro j hj
    have := hzero j hj
    have he3 : v - 1 + -1 * (j : Int) = v - 1 - j := by ring
    rw [he3] at this
    exact this
  · intro h
    rw [nextDayViewDate, h]
  · intro h
    rw [prevDayViewDate, h]
  · intro f z
    rw [countOnDay, countOnDay, List.filter_map]
    rw [List.length_map]
    rfl

/-- Witness for C5: over an empty database both searches give up and the
view date is unchanged. -/
theorem adjacent_day_scan_witness :
    findNextDayWithTasks [] 0 = Option.none ∧ findPrevDayWithTasks [] 0 = Option.none ∧
    nextDayViewDate [] 0 = 0 ∧ prevDayViewDate [] 0 = 0 := by
  have hnext : findNextDayWithTasks [] 0 = Option.none :=
    (adjacent_day_scan [] 0).1.mpr (fun i _ => rfl)
  have hprev : findPrevDayWithTasks [] 0 = Option.none :=
    (adjacent_day_scan [] 0).2.2.1.mpr (fun i _ => rfl)
  exact ⟨hnext, hprev, (adjacent_day_scan [] 0).2.2.2.2.1 hnext,
    (adjacent_day_scan [] 0).2.2.2.2.2.1 hprev⟩

/-! ## View-state machine fragments (pkg/ui/model.go, update.go,
helpers.go) -/

/-- Embeds ui.InputMode. -/
inductive InputMode where
  | normal | add | edit | deleteConfirm | search | helpView
deriving DecidableEq, Repr

/-- Embeds ui.Model.focusNextInput on the activeInput index: Go integer
remainder is truncated division remainder (Int.tmod). -/
def focusNextIndex (a : Int) : Int := Int.tmod (a + 1) 3

/-- Embeds ui.Model.focusPreviousInput on the activeInput index, with the
same Go remainder semantics. -/
def focusPrevIndex (a : Int) : Int := Int.tmod (a - 1) 3

/-- Form field focused by the switch on activeInput in focusNextInput and
focusPreviousInput; indices outside 0, 1, 2 hit no case and focus
nothing. -/
inductive FormField where
  | title | description | dueDate
deriving DecidableEq, Repr

/-- Field focused for a given activeInput index, none when the switch in
focusNextInput and focusPreviousInput has no matching case. -/
def fieldOfIndex (a : Int) : Option FormField :=
  if a = 0 then some .title
  else if a = 1 then some .description
  else if a = 2 then some .dueDate
  else Option.none

/-- C7 (code bug): forward tab cycling wraps 0, 1, 2, 0 as the claim says,
but shift+tab from the title field (index 0) yields index -1, because Go
truncated remainder keeps the sign of the dividend; the focus switch then
matches no case, so no field is focused and the index has left the three
form fields. -/
theorem focusPrev_escapes_field_range :
    focusNextIndex 0 = 1 ∧ focusNextIndex 1 = 2 ∧ focusNextIndex 2 = 0 ∧
    focusPrevIndex 2 = 1 ∧ focusPrevIndex 1 = 0 ∧
    focusPrevIndex 0 = -1 ∧ fieldOfIndex (focusPrevIndex 0) = Option.none ∧
    focusPrevIndex 0 ≠ 2 := by decide

/-- Store mutations issued by a form submit. -/
inductive DbOp where
  | add (t : TodoItem)
  | update (t : TodoItem)
deriving DecidableEq, Repr

/-- Due date carried by a store mutation. -/
def DbOp.dueDate : DbOp → DateTime
  | .add t => t.DueDate
  | .update t => t.DueDate

/-- Tag extracted from one whitespace-delimited token by ui.parseProjects
or ui.parseContexts: a token that starts with the sigil and has at least
one more character yields its whole remainder. -/
def tagOf (sig : Char) (word : String) : Option String :=
  if headCharIs sig word ∧ word.length > 1 then some ((word.data.drop 1).asString)
  else Option.none

/-- Embeds ui.parseProjects: whitespace-delimited tokens that start with a
plus sign and have at least one more character, keeping the whole
remainder of the token. -/
def parseProjects (description : String) : List String :=
  (goFields description).filterMap (tagOf '+')

/-- Embeds ui.parseContexts, symmetric with an at sign. -/
def parseContexts (description : String) : List String :=
  (goFields description).filterMap (tagOf '@')

/-- Go zero time, standing in for fields the store fills itself. -/
def zeroTime : DateTime := ⟨⟨1, 1, 1⟩, 0⟩

/-- Form-related state of ui.Model read and written by submitForm. The
reload of the today view after a successful store call is outside this
fragment; viewDate models m.viewDate as read for due-date defaulting. -/
structure FormModel where
  mode : InputMode
  titleInput : String
  descInput : String
  dueDateInput : String
  viewDate : DateTime
  err : Option String
  editingItem : Option TodoItem
deriving DecidableEq, Repr

/-- Due date resulting from the date-parsing step of ui.Model.submitForm:
an empty trimmed input defaults to the current view date, otherwise the
input must parse as strict YYYY-MM-DD (none signals the validation
error). -/
def parsedDue (dueDate : String) (viewDate : DateTime) : Option DateTime :=
  if dueDate = "" then some viewDate
  else (parseYYYYMMDD dueDate).map (fun d => ⟨d, 0⟩)

/-- Embeds ui.Model.submitForm, with the now parameter standing for
time.Now in resetInputs: trims the three inputs, extracts tags from title
and description, parses the due date (failing with a validation error that
leaves the mode and stored state untouched), then issues the add or update
store call and resets to Normal mode. -/
def submitForm (now : DateTime) (m : FormModel) : FormModel × List DbOp :=
  let title := goTrimSpace m.titleInput
  let desc := goTrimSpace m.descInput
  let dueDate := goTrimSpace m.dueDateInput
  let projects := parseProjects title ++ parseProjects desc
  let contexts := parseContexts title ++ parseContexts desc
  match parsedDue dueDate m.viewDate with
  | Option.none => ({ m with err := some "invalid date format: use YYYY-MM-DD" }, [])
  | some pd =>
    let ops : List DbOp :=
      match m.mode with
      | .add =>
        let t : TodoItem :=
          { ID := 0, Status := false, Title := title, Description := desc,
            Created := zeroTime, LastModified := zeroTime, DueDate := pd,
            Projects := projects, Contexts := contexts }
        [DbOp.add t]
      | .edit =>
        match m.editingItem with
        | some item =>
          let t : TodoItem :=
            { item with
              Title := title
              Description := desc
              DueDate := pd
              Projects := projects
              Contexts := contexts }
          [DbOp.update t]
        | Option.none => []
      | _ => []
    ({ m with
        mode := .normal
        titleInput := ""
        descInput := ""
        dueDateInput := formatISODate now.date
        editingItem := Option.none },
      ops)

/-- C8: a non-empty due-date input that fails the strict YYYY-MM-DD parse
makes the submit fail with a validation error, leaves the mode (hence the
open form) unchanged and issues no store call; an empty due-date input
defaults every issued task's due date to the currently viewed date. -/
theorem submit_validation_and_default (now : DateTime) (m : FormModel) :
    (goTrimSpace m.dueDateInput ≠ "" →
      parseYYYYMMDD (goTrimSpace m.dueDateInput) = Option.none →
      (submitForm now m).1 = { m with err := some "invalid date format: use YYYY-MM-DD" } ∧
      (submitForm now m).1.mode = m.mode ∧ (submitForm now m).2 = []) ∧
    (goTrimSpace m.dueDateInput = "" →
      ∀ op ∈ (submitForm now m).2, op.dueDate = m.viewDate) := by
  constructor
  · intro hne hparse
    have hpd : parsedDue (goTrimSpace m.dueDateInput) m.viewDate = Option.none := by
      rw [parsedDue, if_neg hne, hparse]
      rfl
    simp [submitForm, hpd]
  · intro hemp op hop
    have hpd : parsedDue (goTrimSpace m.dueDateInput) m.viewDate = some m.viewDate := by
      rw [parsedDue, if_pos hemp]
    simp only [submitForm, hpd] at hop
    cases hm : m.mode with
    | add =>
      rw [hm] at hop
      simp only [List.mem_singleton] at hop
      rw [hop]
      rfl
    | edit =>
      rw [hm] at hop
      cases he : m.editingItem with
      | none =>
        rw [he] at hop
        simp at hop
      | some item =>
        rw [he] at hop
        simp only [List.mem_singleton] at hop
        rw [hop]
        rfl
    | normal => rw [hm] at hop; simp at hop
    | deleteConfirm => rw [hm] at hop; simp at hop
    | search => rw [hm] at hop; simp at hop
    | helpView => rw [hm] at hop; simp at hop

/-- Witness for C8: a malformed date is rejected in Add mode keeping the
form open, and an empty date defaults the created task to the viewed
date. -/
theorem submit_validation_and_default_witness :
    ((submitForm wD ⟨.add, "Pay rent", "", "2024-13-99", wD, Option.none, Option.none⟩).1.mode
      = .add ∧
     (submitForm wD ⟨.add, "Pay rent", "", "2024-13-99", wD, Option.none, Option.none⟩).2 = []) ∧
    ∀ op ∈ (submitForm wD ⟨.add, "Pay rent", "", "", wD, Option.none, Option.none⟩).2,
      op.dueDate = wD := by
  constructor
  · have h := (submit_validation_and_default wD
      ⟨.add, "Pay rent", "", "2024-13-99", wD, Option.none, Option.none⟩).1
      (by simp +decide [goTrimSpace]) (by simp +decide [goTrimSpace, parseYYYYMMDD])
    exact ⟨by rw [h.1], h.2.2⟩
  · exact (submit_validation_and_default wD
      ⟨.add, "Pay rent", "", "", wD, Option.none, Option.none⟩).2
      (by simp +decide [goTrimSpace])

/-- Splits a character list at every comma, empty pieces included, the
model of Go strings.Split with a comma separator. -/
def splitCommaCh (acc : List Char) : List Char → List (List Char)
  | [] => [acc.reverse]
  | c :: cs => if c = ',' then acc.reverse :: splitCommaCh [] cs else splitCommaCh (c :: acc) cs

/-- Embeds the tag-column parsing of database.LoadTasks: an empty column
is the empty list, otherwise comma-split with each element trimmed. -/
def parseTagColumn (s : String) : List String :=
  if s = "" then []
  else (splitCommaCh [] s.data).map (fun w => goTrimSpace w.asString)

/-- Embeds the row scanning of database.LoadTasks: a NULL due date becomes
the Go zero time, tag columns are comma-split and trimmed. -/
def rowToItem (r : TaskRow) : TodoItem :=
  { ID := r.id, Status := r.status, Title := r.title, Description := r.description,
    Created := r.created, LastModified := r.lastmodified,
    DueDate := (match r.duedate with | some dt => dt | Option.none => zeroTime),
    Projects := parseTagColumn r.projects, Contexts := parseTagColumn r.contexts }

/-- Embeds ui.Model.loadTasks up to item parsing: builds the WHERE clause
from the current view parameters, queries, and parses the rows. -/
def loadTasks (db : List TaskRow) (vm : ViewMode) (tf : TaskFilter)
    (viewDateStr : String) (search : String) : List TodoItem :=
  (loadTasksRows db (buildWhereClause vm tf viewDateStr search)).map rowToItem

/-- View state read and written by the Normal-mode filter toggles of
ui.Model.Update. -/
structure UiState where
  mode : InputMode
  viewMode : ViewMode
  taskFilter : TaskFilter
  viewDateStr : String
  searchTerm : String
  items : List TodoItem
  db : List TaskRow
deriving DecidableEq, Repr

/-- Reloads the item list from the database with the current view
parameters (the loadTasks call at the end of each toggle branch). -/
def reloadState (s : UiState) : UiState :=
  { s with items := loadTasks s.db s.viewMode s.taskFilter s.viewDateStr s.searchTerm }

/-- Embeds the ShowDoneTasks branch of ui.Model.Update: only acts in
Normal mode; toggles between the done filter and all, then reloads. -/
def pressShowDone (s : UiState) : UiState :=
  match s.mode with
  | .normal =>
    reloadState { s with taskFilter := if s.taskFilter = .done then .all else .done }
  | _ => s

/-- Embeds the ShowUndoneTasks branch of ui.Model.Update: only acts in
Normal mode; toggles between the undone filter and all, then reloads. -/
def pressShowUndone (s : UiState) : UiState :=
  match s.mode with
  | .normal =>
    reloadState { s with taskFilter := if s.taskFilter = .undone then .all else .undone }
  | _ => s

/-- C9: in Normal mode each status-filter toggle cycles against all: the
done toggle maps done to all and anything else to done (never to undone),
the undone toggle symmetrically; the mode stays Normal and the item list
is reloaded for the new filter. -/
theorem filter_toggles_cycle_against_all (s : UiState) (h : s.mode = .normal) :
    ((pressShowDone s).mode = .normal ∧
     (pressShowDone s).taskFilter = (if s.taskFilter = .done then .all else .done) ∧
     (pressShowDone s).taskFilter ≠ .undone ∧
     (pressShowDone s).items
       = loadTasks s.db s.viewMode (pressShowDone s).taskFilter s.viewDateStr s.searchTerm) ∧
    ((pressShowUndone s).mode = .normal ∧
     (pressShowUndone s).taskFilter = (if s.taskFilter = .undone then .all else .undone) ∧
     (pressShowUndone s).taskFilter ≠ .done ∧
     (pressShowUndone s).items
       = loadTasks s.db s.viewMode (pressShowUndone s).taskFilter s.viewDateStr s.searchTerm) := by
  have hd : pressShowDone s
      = reloadState { s with taskFilter := if s.taskFilter = .done then .all else .done } := by
    unfold pressShowDone
    rw [h]
  have hu : pressShowUndone s
      = reloadState { s with taskFilter := if s.taskFilter = .undone then .all else .undone } := by
    unfold pressShowUndone
    rw [h]
  constructor
  · refine ⟨by rw [hd, reloadState, h], by rw [hd]; rfl, ?_, by rw [hd]; rfl⟩
    rw [hd]
    by_cases hf : s.taskFilter = .done
    · rw [reloadState]
      simp [hf]
    · rw [reloadState]
      simp [hf]
  · refine ⟨by rw [hu, reloadState, h], by rw [hu]; rfl, ?_, by rw [hu]; rfl⟩
    rw [hu]
    by_cases hf : s.taskFilter = .undone
    · rw [reloadState]
      simp [hf]
    · rw [reloadState]
      simp [hf]

/-- Empty view state in Normal mode with the done filter active, for the
C9 witness. -/
def wStateDone : UiState := ⟨.normal, .all, .done, "", "", [], []⟩

/-- Witness for C9: pressing the done toggle while the done filter is
active returns the filter to all, not to undone, staying in Normal
mode. -/
theorem filter_toggles_cycle_against_all_witness :
    (pressShowDone wStateDone).mode = .normal ∧
    (pressShowDone wStateDone).taskFilter = .all ∧
    (pressShowDone wStateDone).taskFilter ≠ .undone := by
  have h := (filter_toggles_cycle_against_all wStateDone rfl).1
  exact ⟨h.1, by rw [h.2.1]; rfl, h.2.2.1⟩

/-! ## CLI tag extraction (pkg/commands/add.go) and its relation to the
form extractors (claim C10). -/

/-- Word character of the regular-expression class backslash-w:
ASCII letters, digits and underscore. -/
def isWordChar (c : Char) : Bool := c.isAlphanum || c = '_'

/-- Embeds commands.extractProjects and extractContexts: all left-to-right
non-overlapping matches of sigil(\w+) anywhere in the text, mid-token
included, capturing only the maximal word-character run after the
sigil. -/
def scanTags (sig : Char) : List Char → List String
  | [] => []
  | c :: cs =>
    if c = sig ∧ cs.takeWhile isWordChar ≠ [] then
      (cs.takeWhile isWordChar).asString :: scanTags sig (cs.dropWhile isWordChar)
    else scanTags sig cs
termination_by l => l.length
decreasing_by
  · exact Nat.lt_succ_of_le (List.Sublist.length_le (List.dropWhile_sublist _))
  · simp

/-- Embeds commands.extractProjects. -/
def extractProjects (text : String) : List String := scanTags '+' text.data

/-- Embeds commands.extractContexts. -/
def extractContexts (text : String) : List String := scanTags '@' text.data

/-- C10 counterexample: the whitespace-token extractor of the form and the
regular-expression extractor of the CLI disagree: on x+y the form sees no
project and the CLI extracts y; on +a-b the form keeps the whole remainder
a-b and the CLI keeps only the word characters a. -/
theorem extractors_disagree :
    parseProjects "x+y" = [] ∧ extractProjects "x+y" = ["y"] ∧
    parseProjects "+a-b" = ["a-b"] ∧ extractProjects "+a-b" = ["a"] ∧
    extractProjects "x+y" ≠ parseProjects "x+y" := by
  refine ⟨?_, ?_, ?_, ?_, ?_⟩ <;>
    simp +decide [parseProjects, extractProjects, goFields, fieldsCh, scanTags, tagOf,
      isWordChar, headCharIs]

theorem takeWhile_append_all {p : Char → Bool} :
    ∀ {w r : List Char}, (∀ c ∈ w, p c = true) → (w ++ r).takeWhile p = w ++ r.takeWhile p := by
  intro w
  induction w with
  | nil => intro r _; rfl
  | cons c cs ih =>
    intro r h
    have hc : p c = true := h c (List.mem_cons_self c cs)
    have ih' := ih (r := r) (fun d hd => h d (List.mem_cons_of_mem c hd))
    simp [hc, ih']

theorem dropWhile_append_all {p : Char → Bool} :
    ∀ {w r : List Char}, (∀ c ∈ w, p c = true) → (w ++ r).dropWhile p = r.dropWhile p := by
  intro w
  induction w with
  | nil => intro r _; rfl
  | cons c cs ih =>
    intro r h
    have hc : p c = true := h c (List.mem_cons_self c cs)
    simp only [List.cons_append, List.dropWhile_cons, hc]
    exact ih (fun d hd => h d (List.mem_cons_of_mem c hd))

theorem scanTags_skip (sig : Char) :
    ∀ (t : List Char), (∀ c ∈ t, ¬ c = sig) →
      ∀ r, scanTags sig (t ++ r) = scanTags sig r := by
  intro t
  induction t with
  | nil => intro _ r; rfl
  | cons c cs ih =>
    intro h r
    have hc : ¬ c = sig := h c (List.mem_cons_self c cs)
    show scanTags sig (c :: (cs ++ r)) = scanTags sig r
    rw [scanTags]
    rw [if_neg (fun hand => hc hand.1)]
    exact ih (fun d hd => h d (List.mem_cons_of_mem c hd)) r

theorem scanTags_match (sig : Char) (w r : List Char) (hw : w ≠ [])
    (hwc : ∀ c ∈ w, isWordChar c = true)
    (hr : r = [] ∨ ∃ c r', r = c :: r' ∧ isWordChar c = false) :
    scanTags sig (sig :: (w ++ r)) = w.asString :: scanTags sig r := by
  have htw : (w ++ r).takeWhile isWordChar = w := by
    rw [takeWhile_append_all hwc]
    rcases hr with hr | ⟨c, r', hr, hc⟩
    · rw [hr]
      simp
    · rw [hr]
      simp only [List.takeWhile_cons, hc]
      simp
  have hdw : (w ++ r).dropWhile isWordChar = r := by
    rw [dropWhile_append_all hwc]
    rcases hr with hr | ⟨c, r', hr, hc⟩
    · rw [hr]
      rfl
    · rw [hr]
      simp only [List.dropWhile_cons, hc]
      simp
  rw [scanTags]
  rw [if_pos ⟨rfl, by rw [htw]; exact hw⟩, htw, hdw]

/-- Tokens of the restricted class on which the two extraction schemes
coincide: either a '+' or '@' sigil followed by one or more word
characters, or a non-empty token containing no sigil and no whitespace. -/
def tagTokenOk (t : List Char) : Bool :=
  match t with
  | [] => false
  | c :: w =>
    if c = '+' ∨ c = '@' then
      !w.isEmpty && w.all (fun d => isWordChar d && !d.isWhitespace)
    else
      (c :: w).all (fun d => !(d = '+' : Bool) && !(d = '@' : Bool) && !d.isWhitespace)

/-- Single-space joining of tokens. -/
def spaceJoin : List (List Char) → List Char
  | [] => []
  | [t] => t
  | t :: u :: rest => t ++ ' ' :: spaceJoin (u :: rest)

theorem scanTags_token (sig : Char) (hsig : sig = '+' ∨ sig = '@')
    (t : List Char) (ht : tagTokenOk t = true)
    (r : List Char) (hr : r = [] ∨ ∃ r', r = ' ' :: r') :
    scanTags sig (t ++ r) = (tagOf sig t.asString).toList ++ scanTags sig r := by
  cases t with
  | nil => exact absurd ht (by simp [tagTokenOk])
  | cons c w =>
    by_cases hc : c = '+' ∨ c = '@'
    · have hparts : w ≠ [] ∧ ∀ d ∈ w, isWordChar d = true ∧ d.isWhitespace = false := by
        rw [tagTokenOk, if_pos hc] at ht
        simp only [Bool.and_eq_true, List.all_eq_true] at ht
        refine ⟨by simpa using ht.1, ?_⟩
        intro d hd
        have := ht.2 d hd
        simp only [Bool.and_eq_true] at this
        exact ⟨this.1, by simpa using this.2⟩
      by_cases hcs : c = sig
      · subst hcs
        have hmatch := scanTags_match c w r hparts.1 (fun d hd => (hparts.2 d hd).1) ?_
        · rw [List.cons_append, hmatch]
          have htag : tagOf c (List.asString (c :: w)) = some w.asString := by
            rw [tagOf, if_pos]
            · show some ((List.drop 1 (c :: w)).asString) = some w.asString
              rfl
            · constructor
              · show (c == c) = true
                simp
              · show (c :: w).length > 1
                have := List.length_pos.mpr hparts.1
                simp only [List.length_cons]
                omega
          rw [htag]
          rfl
        · rcases hr with hr | ⟨r', hr⟩
          · exact Or.inl hr
          · exact Or.inr ⟨' ', r', hr, by decide⟩
      · have hskip : ∀ d ∈ c :: w, ¬ d = sig := by
          intro d hd
          rcases List.mem_cons.mp hd with hd | hd
          · exact hd ▸ hcs
          · intro he
            have hword := (hparts.2 d hd).1
            rw [he] at hword
            rcases hsig with h | h <;> rw [h] at hword <;> exact absurd hword (by decide)
        rw [scanTags_skip sig (c :: w) hskip r]
        have htag : tagOf sig (List.asString (c :: w)) = Option.none := by
          rw [tagOf, if_neg]
          intro hand
          have : (sig == c) = true := hand.1
          exact hcs (eq_of_beq this).symm
        rw [htag]
        rfl
    · have hall : ∀ d ∈ c :: w, ¬ (d = '+') ∧ ¬ (d = '@') ∧ d.isWhitespace = false := by
        rw [tagTokenOk, if_neg hc] at ht
        simp only [List.all_eq_true, Bool.and_eq_true] at ht
        intro d hd
        have := ht d hd
        refine ⟨by simpa using this.1.1, by simpa using this.1.2, by simpa using this.2⟩
      have hskip : ∀ d ∈ c :: w, ¬ d = sig := by
        intro d hd he
        rcases hsig with h | h
        · exact (hall d hd).1 (he.trans h)
        · exact (hall d hd).2.1 (he.trans h)
      rw [scanTags_skip sig (c :: w) hskip r]
      have htag : tagOf sig (List.asString (c :: w)) = Option.none := by
        rw [tagOf, if_neg]
        intro hand
        have hbeq : (sig == c) = true := hand.1
        exact hskip c (List.mem_cons_self c w) (eq_of_beq hbeq).symm
      rw [htag]
      rfl

theorem fieldsCh_all_nonws (t : List Char) (hne : t ≠ [])
    (hws : ∀ c ∈ t, c.isWhitespace = false) : fieldsCh t = [t] := by
  cases t with
  | nil => exact absurd rfl hne
  | cons c cs =>
    rw [fieldsCh]
    rw [if_neg (by rw [hws c (List.mem_cons_self c cs)]; exact Bool.false_ne_true)]
    have htw : cs.takeWhile (fun d => !d.isWhitespace) = cs := by
      have := takeWhile_append_all (p := fun d => !d.isWhitespace)
        (w := cs) (r := [])
        (fun d hd => by
          show (!d.isWhitespace) = true
          rw [hws d (List.mem_cons_of_mem c hd)]
          rfl)
      simpa using this
    have hdw : cs.dropWhile (fun d => !d.isWhitespace) = [] := by
      have := dropWhile_append_all (p := fun d => !d.isWhitespace)
        (w := cs) (r := [])
        (fun d hd => by
          show (!d.isWhitespace) = true
          rw [hws d (List.mem_cons_of_mem c hd)]
          rfl)
      simpa using this
    rw [htw, hdw]
    show (c :: cs) :: fieldsCh [] = [c :: cs]
    rw [show fieldsCh [] = [] from by rw [fieldsCh]]

theorem fieldsCh_cons_token (t r : List Char) (hne : t ≠ [])
    (hws : ∀ c ∈ t, c.isWhitespace = false) :
    fieldsCh (t ++ ' ' :: r) = t :: fieldsCh r := by
  cases t with
  | nil => exact absurd rfl hne
  | cons c cs =>
    show fieldsCh (c :: (cs ++ ' ' :: r)) = (c :: cs) :: fieldsCh r
    rw [fieldsCh]
    rw [if_neg (by rw [hws c (List.mem_cons_self c cs)]; exact Bool.false_ne_true)]
    have htw : (cs ++ ' ' :: r).takeWhile (fun d => !d.isWhitespace) = cs := by
      rw [takeWhile_append_all
        (fun d hd => by
          show (!d.isWhitespace) = true
          rw [hws d (List.mem_cons_of_mem c hd)]
          rfl)]
      simp [List.takeWhile_cons]
    have hdw : (cs ++ ' ' :: r).dropWhile (fun d => !d.isWhitespace) = ' ' :: r := by
      rw [dropWhile_append_all
        (fun d hd => by
          show (!d.isWhitespace) = true
          rw [hws d (List.mem_cons_of_mem c hd)]
          rfl)]
      simp [List.dropWhile_cons]
    rw [htw, hdw]
    have hsp : fieldsCh (' ' :: r) = fieldsCh r := by
      rw [fieldsCh]
      rw [if_pos (by decide)]
    show (c :: cs) :: fieldsCh (' ' :: r) = (c :: cs) :: fieldsCh r
    rw [hsp]

theorem tagTokenOk_nonws (t : List Char) (ht : tagTokenOk t = true) :
    t ≠ [] ∧ ∀ c ∈ t, c.isWhitespace = false := by
  cases t with
  | nil => exact absurd ht (by simp [tagTokenOk])
  | cons c w =>
    refine ⟨by simp, ?_⟩
    by_cases hc : c = '+' ∨ c = '@'
    · rw [tagTokenOk, if_pos hc] at ht
      simp only [Bool.and_eq_true, List.all_eq_true] at ht
      intro d hd
      rcases List.mem_cons.mp hd with hd | hd
      · rcases hc with h | h <;> rw [hd, h] <;> rfl
      · have := ht.2 d hd
        simp only [Bool.and_eq_true] at this
        simpa using this.2
    · rw [tagTokenOk, if_neg hc] at ht
      simp only [List.all_eq_true, Bool.and_eq_true] at ht
      intro d hd
      have := ht d hd
      simpa using this.2

theorem fieldsCh_spaceJoin :
    ∀ tokens : List (List Char), (∀ t ∈ tokens, tagTokenOk t = true) →
      fieldsCh (spaceJoin tokens) = tokens := by
  intro tokens
  induction tokens with
  | nil =>
    intro _
    show fieldsCh [] = []
    rw [fieldsCh]
  | cons t rest ih =>
    intro h
    obtain ⟨hne, hws⟩ := tagTokenOk_nonws t (h t (List.mem_cons_self t rest))
    cases rest with
    | nil =>
      show fieldsCh t = [t]
      exact fieldsCh_all_nonws t hne hws
    | cons u rest' =>
      show fieldsCh (t ++ ' ' :: spaceJoin (u :: rest')) = t :: u :: rest'
      rw [fieldsCh_cons_token t _ hne hws,
        ih (fun x hx => h x (List.mem_cons_of_mem t hx))]

theorem scanTags_spaceJoin (sig : Char) (hsig : sig = '+' ∨ sig = '@') :
    ∀ tokens : List (List Char), (∀ t ∈ tokens, tagTokenOk t = true) →
      scanTags sig (spaceJoin tokens)
        = (tokens.map List.asString).filterMap (tagOf sig) := by
  intro tokens
  induction tokens with
  | nil =>
    intro _
    show scanTags sig [] = _
    rw [scanTags]
    rfl
  | cons t rest ih =>
    intro h
    have hts := h t (List.mem_cons_self t rest)
    have hnil : scanTags sig [] = [] := by rw [scanTags]
    cases rest with
    | nil =>
      have hstep := scanTags_token sig hsig t hts [] (Or.inl rfl)
      rw [List.append_nil] at hstep
      show scanTags sig t = _
      rw [hstep, hnil]
      simp only [List.map_cons, List.map_nil, List.filterMap_cons, List.filterMap_nil]
      cases tagOf sig t.asString <;> rfl
    | cons u rest' =>
      show scanTags sig (t ++ ' ' :: spaceJoin (u :: rest')) = _
      rw [scanTags_token sig hsig t hts (' ' :: spaceJoin (u :: rest'))
        (Or.inr ⟨spaceJoin (u :: rest'), rfl⟩)]
      have hsp : scanTags sig (' ' :: spaceJoin (u :: rest'))
          = scanTags sig (spaceJoin (u :: rest')) := by
        rw [scanTags]
        rw [if_neg]
        intro hand
        rcases hsig with hs | hs <;> rw [hs] at hand <;> exact absurd hand.1 (by decide)
      rw [hsp, ih (fun x hx => h x (List.mem_cons_of_mem t hx))]
      simp only [List.map_cons, List.filterMap_cons]
      cases tagOf sig t.asString <;> rfl

/-- C10 (amended): the form extractors and the CLI regular-expression
extractors disagree in general (see the counterexample), but they return
the same project and context lists on texts that are single-space joins of
tokens in which every tag is a whole whitespace-delimited token of the
form sigil-plus-word-characters and other tokens contain no sigil at
all. -/
theorem extractors_agree_on_clean_tokens (tokens : List (List Char))
    (hok : ∀ t ∈ tokens, tagTokenOk t = true) :
    extractProjects (spaceJoin tokens).asString
      = parseProjects (spaceJoin tokens).asString ∧
    extractContexts (spaceJoin tokens).asString
      = parseContexts (spaceJoin tokens).asString := by
  have hfields : goFields (spaceJoin tokens).asString = tokens.map List.asString := by
    rw [goFields]
    show (fieldsCh (spaceJoin tokens)).map List.asString = tokens.map List.asString
    rw [fieldsCh_spaceJoin tokens hok]
  constructor
  · rw [extractProjects, parseProjects, hfields]
    exact scanTags_spaceJoin '+' (Or.inl rfl) tokens hok
  · rw [extractContexts, parseContexts, hfields]
    exact scanTags_spaceJoin '@' (Or.inr rfl) tokens hok

/-- Witness for the amended C10 on the text pay +work @home: both schemes
extract the project work and the context home. -/
theorem extractors_agree_on_clean_tokens_witness :
    extractProjects (spaceJoin [['p','a','y'], ['+','w','o','r','k'], ['@','h','o','m','e']]).asString
      = parseProjects (spaceJoin [['p','a','y'], ['+','w','o','r','k'], ['@','h','o','m','e']]).asString ∧
    extractContexts (spaceJoin [['p','a','y'], ['+','w','o','r','k'], ['@','h','o','m','e']]).asString
      = parseContexts (spaceJoin [['p','a','y'], ['+','w','o','r','k'], ['@','h','o','m','e']]).asString :=
  extractors_agree_on_clean_tokens
    [['p','a','y'], ['+','w','o','r','k'], ['@','h','o','m','e']] (by decide)

end AWP
